import Mathlib

/-
Verification of the site-audit crawl orchestrator
(package `internal/audit`, file `audit.go`).

Go strings are modelled as lists of characters (`Str`).  The external
collaborators of the orchestrator (the Fetcher and Extractor interfaces,
`net/url` parsing/resolution and the robotstxt parser) are modelled as an
environment of oracle functions; everything in `audit.go` itself is
translated directly.
-/

namespace SiteAudit

/-- Go string, modelled as a list of characters. -/
abbrev Str := List Char

/-- Literal conversion helper. -/
def str (s : String) : Str := s.toList

/-- Go `strings.HasSuffix(s, suffix)`. -/
def strEndsWith (s suffixStr : Str) : Bool := suffixStr.isSuffixOf s

/-- Model of Go `net/url.URL` restricted to the fields `audit.go` reads. -/
structure GoURL where
  scheme : Str
  host : Str
  path : Str
  query : Str
  fragment : Str
deriving DecidableEq, Repr

/-- Go `normaliseHost` (audit.go): `strings.TrimPrefix(host, "www.")`. -/
def normaliseHost (host : Str) : Str :=
  if (str "www.").isPrefixOf host then host.drop (str "www.").length else host

/-- The path transformation inside Go `normaliseURL` (audit.go): strip one
trailing slash when the path is longer than one character, then map the empty
path to the root path. -/
def normalisePath (p : Str) : Str :=
  let p1 := if 1 < p.length ∧ strEndsWith p (str "/") = true then p.dropLast else p
  if p1 = [] then str "/" else p1

/-- Go `normaliseURL` (audit.go): canonical key `scheme://host` ++ stripped
path.  Query and fragment never enter the key. -/
def normaliseURL (u : GoURL) : Str :=
  u.scheme ++ str "://" ++ u.host ++ normalisePath u.path

/-- Go `(*url.URL).String()` for the URL shapes the crawler handles:
`scheme://host path [?query] [#fragment]`. -/
def urlString (u : GoURL) : Str :=
  u.scheme ++ str "://" ++ u.host ++ u.path
    ++ (if u.query = [] then [] else '?' :: u.query)
    ++ (if u.fragment = [] then [] else '#' :: u.fragment)

/-- The URL obtained by re-parsing a canonical key: same scheme and host, the
normalised path, and no query or fragment. -/
def canonicalForm (u : GoURL) : GoURL :=
  ⟨u.scheme, u.host, normalisePath u.path, [], []⟩

/-! ## Data model of the orchestrator -/

/-- Model of `audit.Config` (config.go). -/
structure Config where
  logLevel : Str
  startURL : Str
  agent : Str
  validSchemes : Str
  respectRobots : Bool
  maxWorkers : Int
  maxDepth : Int

/-- Model of the `task` struct (audit.go). -/
structure Task where
  u : GoURL
  depth : Int
deriving DecidableEq, Repr

/-- Model of `set.Add` for a string set kept as an insertion-ordered list. -/
def setAdd (s : List Str) (x : Str) : List Str := if x ∈ s then s else s ++ [x]

/-- Go `strings.Split` restricted to a single-character separator. -/
def splitOnChar (c : Char) : Str → List Str
  | [] => [[]]
  | x :: xs =>
    match splitOnChar c xs with
    | [] => [[]]
    | h :: t => if x = c then [] :: h :: t else (x :: h) :: t

/-- The scheme allow-list built by `New` (audit.go lines 73-77): a set seeded
with "https", to which the comma-separated `ValidSchemes` entries are added
when that configuration string is non-empty. -/
def buildSchemes (validSchemes : Str) : List Str :=
  let schemes := [str "https"]
  if validSchemes = [] then schemes
  else (splitOnChar ',' validSchemes).foldl setAdd schemes

/-- The construction errors of `New` (errors.go). -/
inductive NewError where
  | noFetcher
  | noExtractor
  | invalidStartURL
  | invalidStartScheme
  | invalidMaxWorkers
  | invalidMaxDepth
deriving DecidableEq, Repr

/-- The validation sequence of `New` (audit.go lines 49-68).  `parsedStart`
is the outcome of `url.Parse(config.StartURL)` (`none` on error), and the two
booleans say whether the fetcher and extractor collaborators are present. -/
def validateConfig (cfg : Config) (parsedStart : Option GoURL)
    (hasFetcher hasExtractor : Bool) : Except NewError GoURL :=
  if hasFetcher = false then .error .noFetcher
  else if hasExtractor = false then .error .noExtractor
  else
    match parsedStart with
    | none => .error .invalidStartURL
    | some u =>
      if cfg.startURL = [] then .error .invalidStartURL
      else if u.scheme = [] then .error .invalidStartScheme
      else if cfg.maxWorkers < 0 then .error .invalidMaxWorkers
      else if cfg.maxDepth < 0 then .error .invalidMaxDepth
      else .ok u

/-- A parsed robots.txt ruleset: `policy path agent = true` when the path is
allowed for the agent (robotstxt `TestAgent`). -/
def RobotsPolicy := Str → Str → Bool

/-- The part of an `http.Response` the orchestrator reads. -/
structure Response where
  status : Nat
  body : Str

/-- The external collaborators: the Fetcher and Extractor interfaces, and the
library functions `url.Parse`, `(*url.URL).ResolveReference` and
`robotstxt.FromBytes`, all outside `audit.go`. -/
structure Env where
  fetch : GoURL → Except Str Response
  extract : GoURL → Str → Except Str (List Str)
  parseURL : Str → Option GoURL
  resolveRef : GoURL → GoURL → GoURL
  parseRobots : Str → Except Str RobotsPolicy

/-- The immutable part of the `Audit` struct: configuration, parsed start URL
and scheme allow-list. -/
structure Audit where
  config : Config
  startURL : GoURL
  schemes : List Str

/-- The mutable state owned by the orchestrator: task queue, visited set,
site graph and robots policy, together with two history ghosts: every task
ever enqueued, and every URL ever fetched. -/
structure CrawlState where
  tasks : List Task
  visited : List Str
  graphEdges : List (Str × Str × Nat)
  robotsData : Option RobotsPolicy
  enqHistory : List Task
  fetchHistory : List GoURL

/-- The robots guard in `processLinks` (audit.go line 210):
`a.robotsData != nil && !a.robotsData.TestAgent(path, agent)`. -/
def robotsDisallows (rd : Option RobotsPolicy) (path agent : Str) : Bool :=
  match rd with
  | some robots => ! robots path agent
  | none => false

/-- The body of the per-link loop in `processLinks` (audit.go lines 194-226):
parse, resolve, filter on scheme, host and robots, deduplicate on the
canonical key, then record the visit, the edge, and (depth permitting) the
new task. -/
def processLink (a : Audit) (env : Env) (t : Task) (st : CrawlState)
    (linkString : Str) : CrawlState :=
  let baseURL := t.u
  let baseHost := normaliseHost baseURL.host
  match env.parseURL linkString with
  | none => st
  | some parsedLink =>
    let resolvedLink := env.resolveRef baseURL parsedLink
    let resolvedHost := normaliseHost resolvedLink.host
    if resolvedLink.scheme ∉ a.schemes then st
    else if baseHost ≠ resolvedHost then st
    else if robotsDisallows st.robotsData resolvedLink.path a.config.agent then st
    else
      let canonicalURL := normaliseURL resolvedLink
      if canonicalURL ∈ st.visited then st
      else
        let newTasks :=
          if t.depth + 1 < a.config.maxDepth then [(⟨resolvedLink, t.depth + 1⟩ : Task)]
          else []
        { st with
          visited := setAdd st.visited canonicalURL,
          graphEdges := st.graphEdges ++ [(normaliseURL baseURL, canonicalURL, 1)],
          tasks := st.tasks ++ newTasks,
          enqHistory := st.enqHistory ++ newTasks }

/-- Go `processLinks` (audit.go lines 189-227): the per-link body folded over
the extracted link strings, executed under the lock. -/
def processLinks (a : Audit) (env : Env) (t : Task) (st : CrawlState)
    (links : List Str) : CrawlState :=
  links.foldl (processLink a env t) st

/-- One worker iteration body after a task has been dequeued (audit.go lines
168-185): fetch the task URL, drop the task on a fetch error, on a status of
400 or above, or on an extraction error; otherwise process the links. -/
def handleTask (a : Audit) (env : Env) (st : CrawlState) (t : Task) : CrawlState :=
  let st1 := { st with fetchHistory := st.fetchHistory ++ [t.u] }
  match env.fetch t.u with
  | .error _ => st1
  | .ok response =>
    if 400 ≤ response.status then st1
    else
      match env.extract t.u response.body with
      | .error _ => st1
      | .ok links => processLinks a env t st1 links

/-- The sequential worker loop (`startWorker`, audit.go lines 152-187) with
an uncancelled context: dequeue and handle tasks until the queue is observed
empty.  The fuel argument only bounds the recursion; every theorem below
either supplies ample fuel and checks that the final queue is empty, or holds
for all fuel values. -/
def runWorker (a : Audit) (env : Env) : Nat → CrawlState → CrawlState
  | 0, st => st
  | fuel + 1, st =>
    match st.tasks with
    | [] => st
    | t :: rest => runWorker a env fuel (handleTask a env { st with tasks := rest } t)

/-- The worker pool of `Start` sequentialised: `MaxWorkers` runs of the worker
loop, one after the other. -/
def runWorkers (a : Audit) (env : Env) (fuel : Nat) : Nat → CrawlState → CrawlState
  | 0, st => st
  | n + 1, st => runWorkers a env fuel n (runWorker a env fuel st)

/-- The robots.txt URL built by `respectRobots` (audit.go line 119). -/
def robotsURLString (a : Audit) : Str :=
  a.startURL.scheme ++ str "://" ++ a.startURL.host ++ str "/robots.txt"

/-- Go `respectRobots` (audit.go lines 118-150).  Returns the updated state
and `some message` when the preflight fails.  A 404 records the robots URL as
visited and leaves the policy nil; a 200 parses the body into the policy; any
other status, a fetch error, or a parse failure is an error.  (The body-read
error branch of the Go code is folded into the parse oracle.) -/
def respectRobots (a : Audit) (env : Env) (st : CrawlState) :
    CrawlState × Option Str :=
  let robotsURL := robotsURLString a
  match env.parseURL robotsURL with
  | none => (st, some (str "error creating robots url"))
  | some robots =>
    let st1 := { st with fetchHistory := st.fetchHistory ++ [robots] }
    match env.fetch robots with
    | .error e => (st1, some (str "error fetching robots.txt: " ++ e))
    | .ok response =>
      if response.status = 404 then
        ({ st1 with visited := setAdd st1.visited robotsURL }, none)
      else if response.status ≠ 200 then
        (st1, some (str "robots.txt not found or returned non 200/404 status"))
      else
        match env.parseRobots response.body with
        | .error e => (st1, some (str "error parsing robots.txt data: " ++ e))
        | .ok robotsData =>
          ({ st1 with robotsData := some robotsData,
                      visited := setAdd st1.visited robotsURL }, none)

/-- The state a fresh orchestrator starts with: empty queue, visited set and
graph, nil robots policy. -/
def initialState : CrawlState := ⟨[], [], [], none, [], []⟩

/-- Go `Start` (audit.go lines 91-110) with an uncancelled context: optional
robots preflight (a failure aborts with the wrapped error before anything is
enqueued), then enqueue the seed at depth 0, add the raw string of the start
URL to the visited set, and run the workers.  The first component is the
return value of `Start`. -/
def start (a : Audit) (env : Env) (fuel : Nat) : Except Str Unit × CrawlState :=
  match (if a.config.respectRobots then respectRobots a env initialState
         else (initialState, none)) with
  | (st1, some e) => (.error (str "failed to respect robots: " ++ e), st1)
  | (st1, none) =>
    let seedTask : Task := ⟨a.startURL, 0⟩
    let st2 := { st1 with
      tasks := st1.tasks ++ [seedTask],
      enqHistory := st1.enqHistory ++ [seedTask],
      visited := setAdd st1.visited (urlString a.startURL) }
    (.ok (), runWorkers a env fuel a.config.maxWorkers.toNat st2)

/-- A resolved link that passes the scheme, host and robots filters of
`processLinks` for source task `t` under robots policy `rd`. -/
def resolvedOk (a : Audit) (resolved : GoURL) (rd : Option RobotsPolicy)
    (t : Task) : Prop :=
  resolved.scheme ∈ a.schemes ∧
  normaliseHost t.u.host = normaliseHost resolved.host ∧
  robotsDisallows rd resolved.path a.config.agent = false

/-- A link string that passes every filter of `processLinks` for source task
`t` under robots policy `rd`, producing canonical key `k`: it parses, its
resolved scheme is allowed, its resolved host matches the source host after
www-stripping, and robots does not disallow its resolved path. -/
def AcceptedLink (a : Audit) (env : Env) (rd : Option RobotsPolicy) (t : Task)
    (l : Str) (k : Str) : Prop :=
  ∃ pl, env.parseURL l = some pl ∧
    resolvedOk a (env.resolveRef t.u pl) rd t ∧
    k = normaliseURL (env.resolveRef t.u pl)

/-- The number of tasks in a list whose URL has canonical key `k`. -/
def countTasksWithKey (l : List Task) (k : Str) : Nat :=
  (l.filter fun t => normaliseURL t.u == k).length

/-! ## Interleaved execution of the worker pool

`startWorker` goroutines share the queue, visited set and graph under one
mutex.  A dequeue is one critical section; the whole `processLinks` pass of a task
is another; fetch and extraction run outside the lock and touch no shared
state, so the progress of a worker on one task is modelled by two atomic
transitions: `dequeue` and `finish` (the latter applying `handleTask`).  A
worker that observes an empty queue exits permanently.  The context is
uncancelled. -/

/-- The phase of one worker goroutine. -/
inductive WPhase where
  | running
  | processing (t : Task)
  | exited
deriving DecidableEq, Repr

/-- Whole-system state: shared crawl state, the phase of each worker, and two
history ghosts (tasks dequeued, tasks whose handling has completed). -/
structure Sys where
  st : CrawlState
  workers : List WPhase
  deqHistory : List Task
  procHistory : List Task

/-- Interleaving semantics of the worker pool. -/
inductive Step (a : Audit) (env : Env) : Sys → Sys → Prop where
  | dequeue (s : Sys) (i : Nat) (t : Task) (rest : List Task)
      (hw : s.workers[i]? = some WPhase.running)
      (hq : s.st.tasks = t :: rest) :
      Step a env s
        ⟨{ s.st with tasks := rest }, s.workers.set i (WPhase.processing t),
          s.deqHistory ++ [t], s.procHistory⟩
  | finish (s : Sys) (i : Nat) (t : Task)
      (hw : s.workers[i]? = some (WPhase.processing t)) :
      Step a env s
        ⟨handleTask a env s.st t, s.workers.set i WPhase.running,
          s.deqHistory, s.procHistory ++ [t]⟩
  | exitWorker (s : Sys) (i : Nat)
      (hw : s.workers[i]? = some WPhase.running)
      (hq : s.st.tasks = []) :
      Step a env s ⟨s.st, s.workers.set i WPhase.exited, s.deqHistory, s.procHistory⟩

/-- Reachability under the interleaving semantics. -/
def Reachable (a : Audit) (env : Env) : Sys → Sys → Prop :=
  Relation.ReflTransGen (Step a env)

/-- The tasks currently being processed by some worker. -/
def inflight (ws : List WPhase) : List Task :=
  ws.filterMap fun w =>
    match w with
    | WPhase.processing t => some t
    | _ => none

/-- All workers have exited: the moment `wg.Wait()` in `Start` returns. -/
def allExited (s : Sys) : Prop := ∀ w ∈ s.workers, w = WPhase.exited

/-- The seeding step of `Start` (audit.go lines 98-102) applied to the state
`st1` left by the optional robots preflight. -/
def seededState (a : Audit) (st1 : CrawlState) : CrawlState :=
  { st1 with
    tasks := st1.tasks ++ [⟨a.startURL, 0⟩],
    enqHistory := st1.enqHistory ++ [⟨a.startURL, 0⟩],
    visited := setAdd st1.visited (urlString a.startURL) }

/-- The system state right after `Start` seeds the queue and launches `n`
workers. -/
def initSys (a : Audit) (st1 : CrawlState) (n : Nat) : Sys :=
  ⟨seededState a st1, List.replicate n WPhase.running, [], []⟩

/-! ## Worker loop with response bodies and Go defer semantics

`startWorker` registers `defer response.Body.Close()` inside its `for` loop;
in Go, deferred calls run when the function returns, not at the end of the
loop iteration.  This model gives every successfully fetched response body an
id and records an event trace, running the deferred closes exactly where Go
runs them: at worker exit. -/

/-- Events observable about response bodies. -/
inductive BodyEv where
  | fetched (u : GoURL) (bodyId : Nat)
  | fetchFailed (u : GoURL)
  | closed (bodyId : Nat)
deriving DecidableEq, Repr

/-- Worker-local state for the body-tracking model: crawl state, next body
id, the stack of deferred closes (most recent first), and the event trace. -/
structure BodyState where
  st : CrawlState
  nextId : Nat
  deferred : List Nat
  trace : List BodyEv

/-- The worker loop of `startWorker` with Go defer semantics: each successful
fetch pushes a close of its body onto the defer stack; the stack runs (in
LIFO order) only when the worker exits on an empty queue. -/
def runWorkerBodies (a : Audit) (env : Env) : Nat → BodyState → BodyState
  | 0, w => w
  | fuel + 1, w =>
    match w.st.tasks with
    | [] => { w with deferred := [], trace := w.trace ++ w.deferred.map BodyEv.closed }
    | t :: rest =>
      let st1 := { w.st with tasks := rest, fetchHistory := w.st.fetchHistory ++ [t.u] }
      match env.fetch t.u with
      | .error _ =>
        runWorkerBodies a env fuel
          { w with st := st1, trace := w.trace ++ [BodyEv.fetchFailed t.u] }
      | .ok response =>
        let w1 : BodyState :=
          { st := st1, nextId := w.nextId + 1, deferred := w.nextId :: w.deferred,
            trace := w.trace ++ [BodyEv.fetched t.u w.nextId] }
        if 400 ≤ response.status then runWorkerBodies a env fuel w1
        else
          match env.extract t.u response.body with
          | .error _ => runWorkerBodies a env fuel w1
          | .ok links =>
            runWorkerBodies a env fuel { w1 with st := processLinks a env t w1.st links }

/-! ## Concrete fixtures -/

/-- The seed URL of the test configuration: `https://example.com` (empty
path). -/
def exSeed : GoURL := ⟨str "https", str "example.com", [], [], []⟩

/-- A configuration with robots compliance off, one worker, depth limit 2 and
no `ValidSchemes` override. -/
def exConfig : Config :=
  ⟨str "info", str "https://example.com", str "agent", [], false, 1, 2⟩

/-- The orchestrator built from `exConfig`. -/
def exAudit : Audit := ⟨exConfig, exSeed, buildSchemes exConfig.validSchemes⟩

/-- `ResolveReference` for the reference shapes used by the fixtures: a
scheme-less, host-less reference is an absolute path on the base URL, and any
other reference is already absolute. -/
def resolveSimple (base link : GoURL) : GoURL :=
  if link.scheme = [] ∧ link.host = [] then
    ⟨base.scheme, base.host, link.path, link.query, link.fragment⟩
  else link

/-- `url.Parse` for the fixtures: every link string the fixtures produce is
an absolute path reference. -/
def parseAsPath (s : Str) : Option GoURL := some ⟨[], [], s, [], []⟩

/-- Environment in which every page on `example.com` serves a single link
back to the site root `/`. -/
def envRootLink : Env :=
  { fetch := fun u =>
      if u.host = str "example.com" then .ok ⟨200, u.path⟩ else .ok ⟨404, []⟩,
    extract := fun _ _ => .ok [str "/"],
    parseURL := parseAsPath,
    resolveRef := resolveSimple,
    parseRobots := fun _ => .error [] }

/-- Environment serving the 3-page chain seed → /page-a → /page-b, each page
linking only to the next. -/
def envChain : Env :=
  { fetch := fun u =>
      if u.host = str "example.com" then .ok ⟨200, u.path⟩ else .ok ⟨404, []⟩,
    extract := fun u _ =>
      if u.path = [] then .ok [str "/page-a"]
      else if u.path = str "/page-a" then .ok [str "/page-b"]
      else .ok [],
    parseURL := parseAsPath,
    resolveRef := resolveSimple,
    parseRobots := fun _ => .error [] }

/-- Environment in which every fetch fails. -/
def envAllErr : Env :=
  { fetch := fun _ => .error (str "fetch error"),
    extract := fun _ _ => .error (str "extract error"),
    parseURL := parseAsPath,
    resolveRef := resolveSimple,
    parseRobots := fun _ => .error [] }

/-- `exConfig` with robots compliance enabled. -/
def exConfigRobots : Config :=
  ⟨str "info", str "https://example.com", str "agent", [], true, 1, 2⟩

/-- The orchestrator built from `exConfigRobots`. -/
def exAuditRobots : Audit := ⟨exConfigRobots, exSeed, buildSchemes []⟩

/-- Parse function for the robots fixtures: the robots URL parses to its
structured form, anything else as an absolute path reference. -/
def parseRobotsAware (s : Str) : Option GoURL :=
  if s = str "https://example.com/robots.txt" then
    some ⟨str "https", str "example.com", str "/robots.txt", [], []⟩
  else parseAsPath s

/-- Environment in which `robots.txt` returns 404 and every page serves no
links. -/
def envRobots404 : Env :=
  { fetch := fun u =>
      if u.path = str "/robots.txt" then .ok ⟨404, []⟩ else .ok ⟨200, []⟩,
    extract := fun _ _ => .ok [],
    parseURL := parseRobotsAware,
    resolveRef := resolveSimple,
    parseRobots := fun _ => .error [] }

/-- Environment in which `robots.txt` returns 403. -/
def envRobots403 : Env :=
  { fetch := fun u =>
      if u.path = str "/robots.txt" then .ok ⟨403, str "FORBIDDEN"⟩ else .ok ⟨200, []⟩,
    extract := fun _ _ => .ok [],
    parseURL := parseRobotsAware,
    resolveRef := resolveSimple,
    parseRobots := fun _ => .error [] }

/-- Environment in which fetching `robots.txt` fails at the fetch layer. -/
def envRobotsErr : Env :=
  { fetch := fun u =>
      if u.path = str "/robots.txt" then .error (str "network failure")
      else .ok ⟨200, []⟩,
    extract := fun _ _ => .ok [],
    parseURL := parseRobotsAware,
    resolveRef := resolveSimple,
    parseRobots := fun _ => .error [] }

/-- Environment in which `robots.txt` returns 200 but its body fails to
parse. -/
def envRobotsBadParse : Env :=
  { fetch := fun u =>
      if u.path = str "/robots.txt" then .ok ⟨200, str "garbage"⟩ else .ok ⟨200, []⟩,
    extract := fun _ _ => .ok [],
    parseURL := parseRobotsAware,
    resolveRef := resolveSimple,
    parseRobots := fun _ => .error (str "parse failure") }

/-- `exConfig` with a worker count of zero. -/
def exConfigZero : Config :=
  ⟨str "info", str "https://example.com", str "agent", [], false, 0, 2⟩

/-- The orchestrator built from `exConfigZero`. -/
def exAuditZero : Audit := ⟨exConfigZero, exSeed, buildSchemes []⟩

/-- Environment whose parse oracle resolves every link to a URL on the
external host `other.com` with scheme `http`. -/
def envExternal : Env :=
  { fetch := fun _ => Except.error (str "unused"),
    extract := fun _ _ => Except.ok [],
    parseURL := fun s => some ⟨str "http", str "other.com", s, [], []⟩,
    resolveRef := resolveSimple,
    parseRobots := fun _ => Except.error [] }

/-- A crawl state carrying a robots policy that disallows every path. -/
def stRobotsAll : CrawlState :=
  { initialState with robotsData := some (fun _ _ => false) }

/-- The parsed form of `https://example.com/robots.txt`. -/
def robotsParsedURL : GoURL := ⟨str "https", str "example.com", str "/robots.txt", [], []⟩

/-- Environment in which every page responds with status 301 (a non-2xx,
below-400 status) and serves one link to `/page-a`. -/
def envRedirect : Env :=
  { fetch := fun _ => Except.ok ⟨301, []⟩,
    extract := fun _ _ => Except.ok [str "/page-a"],
    parseURL := parseAsPath,
    resolveRef := resolveSimple,
    parseRobots := fun _ => Except.error [] }

/-- The terminal system state of the one-worker crawl under `envAllErr`:
the seed was dequeued, its fetch failed, the worker observed the empty queue
and exited. -/
def c8FinalSys : Sys :=
  ⟨⟨[], [str "https://example.com"], [], none, [⟨exSeed, 0⟩], [exSeed]⟩,
   [WPhase.exited], [⟨exSeed, 0⟩], [⟨exSeed, 0⟩]⟩

/-- The inductive invariant behind lost-task freedom: a non-empty queue
implies a live worker; the enqueue history splits into the dequeue history
followed by the current queue; and the dequeue history is a permutation of
the completed tasks plus the in-flight ones. -/
def SysInv (s : Sys) : Prop :=
  (s.st.tasks ≠ [] → ∃ w ∈ s.workers, w ≠ WPhase.exited) ∧
  s.st.enqHistory = s.deqHistory ++ s.st.tasks ∧
  s.deqHistory.Perm (s.procHistory ++ inflight s.workers)

/-- The inductive invariant behind per-key enqueue uniqueness: the enqueue
history is the seed task followed by tasks enqueued by `processLinks`; each
of those carries a canonical key already in the visited set, the keys are
pairwise distinct, and none equals the raw start-URL string (which is in the
visited set from seeding onwards). -/
def EnqInv (a : Audit) (st : CrawlState) : Prop :=
  ∃ rest, st.enqHistory = (⟨a.startURL, 0⟩ : Task) :: rest ∧
    (∀ t ∈ rest, normaliseURL t.u ∈ st.visited) ∧
    (rest.map fun t => normaliseURL t.u).Nodup ∧
    urlString a.startURL ∈ st.visited ∧
    (∀ t ∈ rest, normaliseURL t.u ≠ urlString a.startURL)

/-- The body-release discipline the specification asks of the worker loop:
between any two fetches by the same worker, the body of the earlier fetch has
been closed. -/
def bodiesClosedBeforeNextFetch (tr : List BodyEv) : Prop :=
  ∀ (i j : Nat) (u1 : GoURL) (b1 : Nat) (u2 : GoURL) (b2 : Nat), i < j →
    tr[i]? = some (BodyEv.fetched u1 b1) →
    tr[j]? = some (BodyEv.fetched u2 b2) →
    ∃ m, i < m ∧ m < j ∧ tr[m]? = some (BodyEv.closed b1)

/-! ## Lemmas about canonicalisation -/

lemma strEndsWith_iff (s t : Str) : strEndsWith s t = true ↔ t <:+ s := by
  simp [strEndsWith, List.isSuffixOf_iff_suffix]

lemma strEndsWith_concat_iff (l : Str) (a : Char) :
    strEndsWith (l ++ [a]) (str "/") = true ↔ a = '/' := by
  rw [strEndsWith_iff]
  constructor
  · rintro ⟨u, hu⟩
    have h := congrArg List.getLast? hu
    have h1 : (u ++ str "/").getLast? = some '/' := List.getLast?_concat u
    have h2 : (l ++ [a]).getLast? = some a := List.getLast?_concat l
    rw [h1, h2] at h
    exact (Option.some_inj.mp h).symm
  · rintro rfl
    exact ⟨l, rfl⟩

lemma normalisePath_concat_slash (q : Str) (hq : q ≠ []) :
    normalisePath (q ++ [ '/' ]) = q := by
  have h0 : 0 < q.length := List.length_pos.mpr hq
  have hlen : 1 < (q ++ [ '/' ]).length := by
    simp [List.length_append]
    exact h0
  have hends : strEndsWith (q ++ [ '/' ]) (str "/") = true :=
    (strEndsWith_concat_iff q '/').mpr rfl
  have hcond : 1 < (q ++ [ '/' ]).length ∧ strEndsWith (q ++ [ '/' ]) (str "/") = true :=
    ⟨hlen, hends⟩
  simp only [normalisePath]
  rw [if_pos hcond, List.dropLast_concat, if_neg hq]

lemma normalisePath_fixed (p : Str) (h1 : p ≠ [])
    (h2 : strEndsWith p (str "/") = false) : normalisePath p = p := by
  have hcond : ¬ (1 < p.length ∧ strEndsWith p (str "/") = true) := by
    rintro ⟨-, he⟩
    rw [h2] at he
    cases he
  simp only [normalisePath]
  rw [if_neg hcond, if_neg h1]

lemma normalisePath_root : normalisePath (str "/") = str "/" := by decide

lemma strEndsWith_double_of_concat (q : Str) :
    strEndsWith ((q ++ [ '/' ]) ++ [ '/' ]) (str "//") = true := by
  rw [strEndsWith_iff]
  refine ⟨q, ?_⟩
  simp [str]

lemma strEndsWith_concat_false_of_ne (l : Str) (a : Char) (ha : a ≠ '/') :
    strEndsWith (l ++ [a]) (str "/") = false := by
  cases hb : strEndsWith (l ++ [a]) (str "/") with
  | false => rfl
  | true => exact absurd ((strEndsWith_concat_iff l a).mp hb) ha

/-- Idempotence of the path normalisation, valid when the path does not end in
a double slash. -/
lemma normalisePath_idem (p : Str) (h : strEndsWith p (str "//") = false) :
    normalisePath (normalisePath p) = normalisePath p := by
  rcases List.eq_nil_or_concat' p with rfl | ⟨q, a, rfl⟩
  · decide
  · by_cases ha : a = '/'
    · subst ha
      rcases List.eq_nil_or_concat' q with rfl | ⟨q2, b, rfl⟩
      · decide
      · by_cases hb : b = '/'
        · subst hb
          rw [strEndsWith_double_of_concat q2] at h
          cases h
        · have hq : q2 ++ [b] ≠ [] := by simp
          rw [normalisePath_concat_slash (q2 ++ [b]) hq]
          exact normalisePath_fixed (q2 ++ [b]) hq
            (strEndsWith_concat_false_of_ne q2 b hb)
    · have hnotend : strEndsWith (q ++ [a]) (str "/") = false :=
        strEndsWith_concat_false_of_ne q a ha
      have hne : q ++ [a] ≠ [] := by simp
      rw [normalisePath_fixed (q ++ [a]) hne hnotend,
        normalisePath_fixed (q ++ [a]) hne hnotend]

/-- Appending a single trailing slash does not change the canonical path,
provided the original path does not already end in a slash (the root path is
also unaffected). -/
lemma normalisePath_append_slash (p : Str)
    (h : strEndsWith p (str "/") = false ∨ p = str "/") :
    normalisePath (p ++ str "/") = normalisePath p := by
  rcases h with h | rfl
  · rcases List.eq_nil_or_concat' p with rfl | ⟨q, a, rfl⟩
    · decide
    · have hne : q ++ [a] ≠ [] := by simp
      rw [normalisePath_fixed (q ++ [a]) hne h]
      exact normalisePath_concat_slash (q ++ [a]) hne
  · decide

/-! ## Lemmas about the orchestrator -/

lemma processLink_cases (a : Audit) (env : Env) (t : Task) (st : CrawlState) (l : Str) :
    processLink a env t st l = st ∨
    ∃ pl resolved k nts,
      env.parseURL l = some pl ∧
      resolved = env.resolveRef t.u pl ∧
      k = normaliseURL resolved ∧
      nts = (if t.depth + 1 < a.config.maxDepth then [(⟨resolved, t.depth + 1⟩ : Task)] else []) ∧
      resolved.scheme ∈ a.schemes ∧
      normaliseHost t.u.host = normaliseHost resolved.host ∧
      robotsDisallows st.robotsData resolved.path a.config.agent = false ∧
      k ∉ st.visited ∧
      processLink a env t st l =
        { st with
          visited := st.visited ++ [k],
          graphEdges := st.graphEdges ++ [(normaliseURL t.u, k, 1)],
          tasks := st.tasks ++ nts,
          enqHistory := st.enqHistory ++ nts } := by
  unfold processLink
  cases hp : env.parseURL l with
  | none => exact Or.inl rfl
  | some pl =>
    dsimp only
    by_cases hs : (env.resolveRef t.u pl).scheme ∉ a.schemes
    · rw [if_pos hs]; exact Or.inl rfl
    · rw [if_neg hs]
      by_cases hh : normaliseHost t.u.host ≠ normaliseHost (env.resolveRef t.u pl).host
      · rw [if_pos hh]; exact Or.inl rfl
      · rw [if_neg hh]
        by_cases hr : robotsDisallows st.robotsData (env.resolveRef t.u pl).path a.config.agent = true
        · rw [if_pos hr]; exact Or.inl rfl
        · rw [if_neg hr]
          have hr2 : robotsDisallows st.robotsData (env.resolveRef t.u pl).path a.config.agent = false := by
            rwa [Bool.not_eq_true] at hr
          by_cases hv : normaliseURL (env.resolveRef t.u pl) ∈ st.visited
          · rw [if_pos hv]; exact Or.inl rfl
          · rw [if_neg hv]
            refine Or.inr ⟨pl, env.resolveRef t.u pl, normaliseURL (env.resolveRef t.u pl), _, rfl, rfl, rfl, rfl, not_not.mp hs, not_ne_iff.mp hh, hr2, hv, ?_⟩
            simp only [setAdd, if_neg hv]

lemma crawlState_ext_nil (st : CrawlState) :
    ({ st with
        visited := st.visited ++ [],
        graphEdges := st.graphEdges ++ [],
        tasks := st.tasks ++ [],
        enqHistory := st.enqHistory ++ [] } : CrawlState) = st := by
  simp

lemma processLink_extends (a : Audit) (env : Env) (t : Task) (st : CrawlState) (l : Str) :
    ∃ ks es d,
      processLink a env t st l =
        { st with
            visited := st.visited ++ ks,
            graphEdges := st.graphEdges ++ es,
            tasks := st.tasks ++ d,
            enqHistory := st.enqHistory ++ d } := by
  rcases processLink_cases a env t st l with h | ⟨pl, resolved, k, nts, hp, hres, hk, hnts, hsch, hhost, hrob, hvis, h⟩
  · exact ⟨[], [], [], by rw [h, crawlState_ext_nil]⟩
  · exact ⟨[k], [(normaliseURL t.u, k, 1)], nts, h⟩

lemma processLinks_extends (a : Audit) (env : Env) (t : Task) (links : List Str) :
    ∀ st : CrawlState, ∃ ks es d,
      processLinks a env t st links =
        { st with
            visited := st.visited ++ ks,
            graphEdges := st.graphEdges ++ es,
            tasks := st.tasks ++ d,
            enqHistory := st.enqHistory ++ d } := by
  induction links with
  | nil => exact fun st => ⟨[], [], [], by rw [processLinks, List.foldl_nil, crawlState_ext_nil]⟩
  | cons l ls ih =>
    intro st
    obtain ⟨ks1, es1, d1, h1⟩ := processLink_extends a env t st l
    obtain ⟨ks2, es2, d2, h2⟩ := ih (processLink a env t st l)
    refine ⟨ks1 ++ ks2, es1 ++ es2, d1 ++ d2, ?_⟩
    have hfold : processLinks a env t st (l :: ls) = processLinks a env t (processLink a env t st l) ls := by
      rw [processLinks, processLinks, List.foldl_cons]
    rw [hfold, h2, h1]
    simp [List.append_assoc]

lemma handleTask_extends (a : Audit) (env : Env) (st : CrawlState) (t : Task) :
    ∃ ks es d,
      handleTask a env st t =
        { st with
            visited := st.visited ++ ks,
            graphEdges := st.graphEdges ++ es,
            tasks := st.tasks ++ d,
            enqHistory := st.enqHistory ++ d,
            fetchHistory := st.fetchHistory ++ [t.u] } := by
  unfold handleTask
  cases hf : env.fetch t.u with
  | error e => exact ⟨[], [], [], by simp⟩
  | ok response =>
    dsimp only
    by_cases hs : 400 ≤ response.status
    · rw [if_pos hs]; exact ⟨[], [], [], by simp⟩
    · rw [if_neg hs]
      cases hx : env.extract t.u response.body with
      | error e => exact ⟨[], [], [], by simp⟩
      | ok links =>
        obtain ⟨ks, es, d, h⟩ :=
          processLinks_extends a env t links { st with fetchHistory := st.fetchHistory ++ [t.u] }
        exact ⟨ks, es, d, h⟩

lemma mem_set_self (ws : List WPhase) (i : Nat) (v : WPhase) (h : i < ws.length) :
    v ∈ ws.set i v := by
  induction ws generalizing i with
  | nil => simp at h
  | cons w ws ih =>
    cases i with
    | zero => simp
    | succ i =>
      simp only [List.set_cons_succ, List.mem_cons]
      exact Or.inr (ih i (by simpa using h))

lemma inflight_cons_running (ws : List WPhase) :
    inflight (WPhase.running :: ws) = inflight ws := by
  simp [inflight, List.filterMap_cons]

lemma inflight_cons_exited (ws : List WPhase) :
    inflight (WPhase.exited :: ws) = inflight ws := by
  simp [inflight, List.filterMap_cons]

lemma inflight_cons_processing (t : Task) (ws : List WPhase) :
    inflight (WPhase.processing t :: ws) = t :: inflight ws := by
  simp [inflight, List.filterMap_cons]

lemma inflight_set_processing (ws : List WPhase) (i : Nat) (t : Task)
    (h : ws[i]? = some WPhase.running) :
    (inflight (ws.set i (WPhase.processing t))).Perm (t :: inflight ws) := by
  induction ws generalizing i with
  | nil => simp at h
  | cons w ws ih =>
    cases i with
    | zero =>
      simp only [List.getElem?_cons_zero, Option.some_inj] at h
      subst h
      rw [List.set_cons_zero, inflight_cons_processing, inflight_cons_running]
    | succ i =>
      simp only [List.getElem?_cons_succ] at h
      rw [List.set_cons_succ]
      cases w with
      | running =>
        rw [inflight_cons_running, inflight_cons_running]
        exact ih i h
      | exited =>
        rw [inflight_cons_exited, inflight_cons_exited]
        exact ih i h
      | processing u =>
        rw [inflight_cons_processing, inflight_cons_processing]
        exact ((ih i h).cons u).trans (List.Perm.swap t u (inflight ws))

lemma inflight_set_running (ws : List WPhase) (i : Nat) (t : Task)
    (h : ws[i]? = some (WPhase.processing t)) :
    (t :: inflight (ws.set i WPhase.running)).Perm (inflight ws) := by
  induction ws generalizing i with
  | nil => simp at h
  | cons w ws ih =>
    cases i with
    | zero =>
      simp only [List.getElem?_cons_zero, Option.some_inj] at h
      subst h
      rw [List.set_cons_zero, inflight_cons_processing, inflight_cons_running]
    | succ i =>
      simp only [List.getElem?_cons_succ] at h
      rw [List.set_cons_succ]
      cases w with
      | running =>
        rw [inflight_cons_running, inflight_cons_running]
        exact ih i h
      | exited =>
        rw [inflight_cons_exited, inflight_cons_exited]
        exact ih i h
      | processing u =>
        rw [inflight_cons_processing, inflight_cons_processing]
        exact (List.Perm.swap u t _).trans ((ih i h).cons u)

lemma inflight_set_exited (ws : List WPhase) (i : Nat)
    (h : ws[i]? = some WPhase.running) :
    inflight (ws.set i WPhase.exited) = inflight ws := by
  induction ws generalizing i with
  | nil => simp at h
  | cons w ws ih =>
    cases i with
    | zero =>
      simp only [List.getElem?_cons_zero, Option.some_inj] at h
      subst h
      rw [List.set_cons_zero, inflight_cons_exited, inflight_cons_running]
    | succ i =>
      simp only [List.getElem?_cons_succ] at h
      rw [List.set_cons_succ]
      cases w with
      | running => rw [inflight_cons_running, inflight_cons_running, ih i h]
      | exited => rw [inflight_cons_exited, inflight_cons_exited, ih i h]
      | processing u =>
        rw [inflight_cons_processing, inflight_cons_processing, ih i h]

lemma inflight_nil_of_allExited (ws : List WPhase)
    (h : ∀ w ∈ ws, w = WPhase.exited) : inflight ws = [] := by
  induction ws with
  | nil => rfl
  | cons w ws ih =>
    have hw : w = WPhase.exited := h w (by simp)
    subst hw
    rw [inflight_cons_exited]
    exact ih fun w hw => h w (by simp [hw])

lemma inflight_replicate_running (n : Nat) :
    inflight (List.replicate n WPhase.running) = [] := by
  induction n with
  | zero => rfl
  | succ n ih => rw [List.replicate_succ, inflight_cons_running, ih]

lemma sysInv_init (a : Audit) (st1 : CrawlState) (n : Nat) (hn : 1 ≤ n)
    (ht : st1.tasks = []) (he : st1.enqHistory = []) : SysInv (initSys a st1 n) := by
  refine ⟨fun _ => ⟨WPhase.running, ?_, by simp⟩, ?_, ?_⟩
  · show WPhase.running ∈ List.replicate n WPhase.running
    exact List.mem_replicate.mpr ⟨by omega, rfl⟩
  · simp [initSys, seededState, ht, he]
  · simp [initSys, inflight_replicate_running]

lemma sysInv_step (a : Audit) (env : Env) (s s' : Sys) (hstep : Step a env s s')
    (hinv : SysInv s) : SysInv s' := by
  obtain ⟨hA, hB, hC⟩ := hinv
  cases hstep with
  | dequeue i t rest hw hq =>
    have hilen : i < s.workers.length := List.getElem?_eq_some_iff.mp hw |>.1
    refine ⟨fun _ => ⟨WPhase.processing t, mem_set_self _ i _ hilen, by simp⟩, ?_, ?_⟩
    · show s.st.enqHistory = (s.deqHistory ++ [t]) ++ rest
      rw [hB, hq, List.append_assoc]
      rfl
    · show (s.deqHistory ++ [t]).Perm
        (s.procHistory ++ inflight (s.workers.set i (WPhase.processing t)))
      have h1 : (s.deqHistory ++ [t]).Perm ((s.procHistory ++ inflight s.workers) ++ [t]) :=
        hC.append_right [t]
      have h2 : ((s.procHistory ++ inflight s.workers) ++ [t]).Perm
          (s.procHistory ++ (t :: inflight s.workers)) := by
        rw [List.append_assoc]
        exact List.Perm.append_left s.procHistory
          (List.perm_append_singleton t (inflight s.workers))
      have h3 : (s.procHistory ++ (t :: inflight s.workers)).Perm
          (s.procHistory ++ inflight (s.workers.set i (WPhase.processing t))) :=
        List.Perm.append_left s.procHistory (inflight_set_processing s.workers i t hw).symm
      exact (h1.trans h2).trans h3
  | finish i t hw =>
    have hilen : i < s.workers.length := List.getElem?_eq_some_iff.mp hw |>.1
    obtain ⟨ks, es, d, hext⟩ := handleTask_extends a env s.st t
    refine ⟨fun _ => ⟨WPhase.running, mem_set_self _ i _ hilen, by simp⟩, ?_, ?_⟩
    · show (handleTask a env s.st t).enqHistory =
        s.deqHistory ++ (handleTask a env s.st t).tasks
      rw [hext]
      show s.st.enqHistory ++ d = s.deqHistory ++ (s.st.tasks ++ d)
      rw [hB, List.append_assoc]
    · show s.deqHistory.Perm
        ((s.procHistory ++ [t]) ++ inflight (s.workers.set i WPhase.running))
      have h1 : ((s.procHistory ++ [t]) ++ inflight (s.workers.set i WPhase.running)).Perm
          (s.procHistory ++ inflight s.workers) := by
        rw [List.append_assoc]
        exact List.Perm.append_left s.procHistory (inflight_set_running s.workers i t hw)
      exact hC.trans h1.symm
  | exitWorker i hw hq =>
    refine ⟨fun hne => absurd hq (by simpa using hne), hB, ?_⟩
    show s.deqHistory.Perm (s.procHistory ++ inflight (s.workers.set i WPhase.exited))
    rw [inflight_set_exited s.workers i hw]
    exact hC

lemma sysInv_reachable (a : Audit) (env : Env) (s0 s : Sys)
    (hreach : Reachable a env s0 s) (h0 : SysInv s0) : SysInv s := by
  induction hreach with
  | refl => exact h0
  | tail hr hstep ih => exact sysInv_step a env _ _ hstep ih

lemma mem_setAdd_self (s : List Str) (x : Str) : x ∈ setAdd s x := by
  by_cases h : x ∈ s
  · simp [setAdd, h]
  · simp [setAdd, h]

lemma mem_setAdd_of_mem (s : List Str) (x y : Str) (h : y ∈ s) : y ∈ setAdd s x := by
  by_cases hx : x ∈ s
  · simpa [setAdd, hx]
  · simp [setAdd, hx, h]

lemma enqInv_processLink (a : Audit) (env : Env) (t : Task) (st : CrawlState)
    (l : Str) (h : EnqInv a st) : EnqInv a (processLink a env t st l) := by
  rcases processLink_cases a env t st l with
    heq | ⟨pl, resolved, k, nts, hp, hres, hk, hnts, hsch, hhost, hrob, hvis, heq⟩
  · rw [heq]; exact h
  · obtain ⟨rest, hdec, hsub, hnodup, hurl, hne⟩ := h
    rw [heq]
    have hkey : ∀ t' ∈ nts, normaliseURL t'.u = k := by
      intro t' ht'
      rw [hnts] at ht'
      by_cases hd : t.depth + 1 < a.config.maxDepth
      · rw [if_pos hd] at ht'
        have : t' = (⟨resolved, t.depth + 1⟩ : Task) := by simpa using ht'
        rw [this, hk]
      · rw [if_neg hd] at ht'
        exact absurd ht' (List.not_mem_nil t')
    refine ⟨rest ++ nts, ?_, ?_, ?_, ?_, ?_⟩
    · show st.enqHistory ++ nts = (⟨a.startURL, 0⟩ : Task) :: (rest ++ nts)
      rw [hdec, List.cons_append]
    · intro t' ht'
      rcases List.mem_append.mp ht' with h1 | h2
      · exact List.mem_append.mpr (Or.inl (hsub t' h1))
      · rw [hkey t' h2]
        exact List.mem_append.mpr (Or.inr (by simp))
    · rw [List.map_append]
      rw [List.nodup_append]
      refine ⟨hnodup, ?_, ?_⟩
      · cases hd : nts with
        | nil => simp
        | cons x xs =>
          have hx : x ∈ nts := by simp [hd]
          have hxs : xs = [] := by
            rw [hnts] at hd
            by_cases hdd : t.depth + 1 < a.config.maxDepth
            · rw [if_pos hdd] at hd
              exact (List.cons.injEq _ _ _ _ ▸ hd).2.symm ▸ rfl
            · rw [if_neg hdd] at hd
              cases hd
          simp [hxs]
      · intro x hx hx2
        simp only [List.mem_map] at hx hx2
        obtain ⟨tx, htx, hxe⟩ := hx
        obtain ⟨ty, hty, hye⟩ := hx2
        have hk2 : normaliseURL tx.u = k := by rw [hxe, ← hye, hkey ty hty]
        exact hvis (hk2 ▸ hsub tx htx)
    · exact List.mem_append.mpr (Or.inl hurl)
    · intro t' ht'
      rcases List.mem_append.mp ht' with h1 | h2
      · exact hne t' h1
      · rw [hkey t' h2]
        intro hcon
        exact hvis (hcon ▸ hurl)

lemma enqInv_processLinks (a : Audit) (env : Env) (t : Task) (links : List Str) :
    ∀ st : CrawlState, EnqInv a st → EnqInv a (processLinks a env t st links) := by
  induction links with
  | nil => exact fun st h => h
  | cons l ls ih =>
    intro st h
    have hfold : processLinks a env t st (l :: ls) =
        processLinks a env t (processLink a env t st l) ls := by
      rw [processLinks, processLinks, List.foldl_cons]
    rw [hfold]
    exact ih _ (enqInv_processLink a env t st l h)

lemma enqInv_handleTask (a : Audit) (env : Env) (st : CrawlState) (t : Task)
    (h : EnqInv a st) : EnqInv a (handleTask a env st t) := by
  unfold handleTask
  cases hf : env.fetch t.u with
  | error e => exact h
  | ok response =>
    dsimp only
    by_cases hs : 400 ≤ response.status
    · rw [if_pos hs]; exact h
    · rw [if_neg hs]
      cases hx : env.extract t.u response.body with
      | error e => exact h
      | ok links => exact enqInv_processLinks a env t links _ h

lemma enqInv_step (a : Audit) (env : Env) (s s' : Sys) (hstep : Step a env s s')
    (h : EnqInv a s.st) : EnqInv a s'.st := by
  cases hstep with
  | dequeue i t rest hw hq => exact h
  | finish i t hw => exact enqInv_handleTask a env s.st t h
  | exitWorker i hw hq => exact h

lemma enqInv_init (a : Audit) (st1 : CrawlState) (n : Nat)
    (he : st1.enqHistory = []) : EnqInv a (initSys a st1 n).st := by
  refine ⟨[], ?_, by simp, by simp, ?_, by simp⟩
  · show st1.enqHistory ++ [(⟨a.startURL, 0⟩ : Task)] = _
    rw [he, List.nil_append]
  · exact mem_setAdd_self st1.visited (urlString a.startURL)

lemma enqInv_reachable (a : Audit) (env : Env) (st1 : CrawlState) (n : Nat)
    (he : st1.enqHistory = []) (s : Sys)
    (hreach : Reachable a env (initSys a st1 n) s) : EnqInv a s.st := by
  induction hreach with
  | refl => exact enqInv_init a st1 n he
  | tail hr hstep ih => exact enqInv_step a env _ _ hstep ih

lemma countTasksWithKey_cons (x : Task) (l : List Task) (k : Str) :
    countTasksWithKey (x :: l) k =
      (if normaliseURL x.u == k then 1 else 0) + countTasksWithKey l k := by
  by_cases h : normaliseURL x.u == k
  · simp [countTasksWithKey, List.filter_cons, h, Nat.add_comm]
  · simp [countTasksWithKey, List.filter_cons, h]

lemma countTasksWithKey_eq_zero_of_forall_ne (l : List Task) (k : Str)
    (h : ∀ t ∈ l, normaliseURL t.u ≠ k) : countTasksWithKey l k = 0 := by
  induction l with
  | nil => rfl
  | cons x xs ih =>
    rw [countTasksWithKey_cons]
    have hx : ¬ (normaliseURL x.u == k) = true := by
      simp only [beq_iff_eq]
      exact h x (by simp)
    rw [if_neg hx, ih fun t ht => h t (by simp [ht])]

lemma countTasksWithKey_le_one_of_nodup (l : List Task) (k : Str)
    (h : (l.map fun t => normaliseURL t.u).Nodup) : countTasksWithKey l k ≤ 1 := by
  induction l with
  | nil => simp [countTasksWithKey]
  | cons x xs ih =>
    simp only [List.map_cons, List.nodup_cons] at h
    obtain ⟨hx, hxs⟩ := h
    rw [countTasksWithKey_cons]
    by_cases he : normaliseURL x.u == k
    · rw [if_pos he]
      have hz : countTasksWithKey xs k = 0 := by
        refine countTasksWithKey_eq_zero_of_forall_ne xs k fun t ht hcon => hx ?_
        rw [List.mem_map]
        exact ⟨t, ht, by rw [hcon]; exact (beq_iff_eq.mp he).symm ▸ rfl⟩
      omega
    · rw [if_neg he, Nat.zero_add]
      exact ih hxs

/-- C8: no task is lost at termination.  For every crawl with at least one
worker and an uncancelled context, in any reachable state in which all
workers have exited (the moment `Start` returns), the queue is empty, the
dequeue history equals the whole enqueue history in order, and the multiset
of fully processed tasks equals the multiset of dequeued tasks: a worker
observing a momentarily empty queue while another worker is mid-processing
never causes an enqueued task to go unprocessed. -/
theorem C8_no_task_lost (a : Audit) (env : Env) (st1 : CrawlState) (n : Nat)
    (hn : 1 ≤ n) (ht : st1.tasks = []) (he : st1.enqHistory = [])
    (s : Sys) (hreach : Reachable a env (initSys a st1 n) s) (hterm : allExited s) :
    s.st.tasks = [] ∧ s.st.enqHistory = s.deqHistory ∧ s.deqHistory.Perm s.procHistory := by
  obtain ⟨hA, hB, hC⟩ := sysInv_reachable a env _ s hreach (sysInv_init a st1 n hn ht he)
  have htasks : s.st.tasks = [] := by
    by_contra hne
    obtain ⟨w, hwmem, hwne⟩ := hA hne
    exact hwne (hterm w hwmem)
  refine ⟨htasks, ?_, ?_⟩
  · rw [hB, htasks, List.append_nil]
  · have hinf : inflight s.workers = [] := inflight_nil_of_allExited s.workers hterm
    rw [hinf, List.append_nil] at hC
    exact hC

/-- C1 (amended): over the whole lifetime of any crawl, every canonical key
other than the canonical key of the seed is enqueued at most once, and no
key is enqueued more than twice.  When the raw string of the seed URL equals
its canonical key, no canonical key at all is enqueued twice.  (The original
claim fails only for the seed key when its raw string differs from its
canonical form; see the counterexample.) -/
theorem C1_enqueue_once_amended (a : Audit) (env : Env) (st1 : CrawlState) (n : Nat)
    (he : st1.enqHistory = []) (s : Sys)
    (hreach : Reachable a env (initSys a st1 n) s) :
    (∀ k, k ≠ normaliseURL a.startURL → countTasksWithKey s.st.enqHistory k ≤ 1) ∧
    (∀ k, countTasksWithKey s.st.enqHistory k ≤ 2) ∧
    (urlString a.startURL = normaliseURL a.startURL →
      ∀ k, countTasksWithKey s.st.enqHistory k ≤ 1) := by
  obtain ⟨rest, hdec, hsub, hnodup, hurl, hne⟩ := enqInv_reachable a env st1 n he s hreach
  have hrest : ∀ k, countTasksWithKey rest k ≤ 1 :=
    fun k => countTasksWithKey_le_one_of_nodup rest k hnodup
  have hseedkey : normaliseURL (⟨a.startURL, 0⟩ : Task).u = normaliseURL a.startURL := rfl
  refine ⟨?_, ?_, ?_⟩
  · intro k hk
    rw [hdec, countTasksWithKey_cons]
    have : ¬ (normaliseURL (⟨a.startURL, 0⟩ : Task).u == k) = true := by
      simp only [beq_iff_eq, hseedkey]
      exact fun hcon => hk hcon.symm
    rw [if_neg this, Nat.zero_add]
    exact hrest k
  · intro k
    rw [hdec, countTasksWithKey_cons]
    have h1 := hrest k
    by_cases hb : (normaliseURL (⟨a.startURL, 0⟩ : Task).u == k) = true
    · rw [if_pos hb]; omega
    · rw [if_neg hb]; omega
  · intro hroot k
    rw [hdec, countTasksWithKey_cons]
    by_cases hb : (normaliseURL (⟨a.startURL, 0⟩ : Task).u == k) = true
    · rw [if_pos hb]
      have hz : countTasksWithKey rest k = 0 := by
        refine countTasksWithKey_eq_zero_of_forall_ne rest k fun t ht hcon => ?_
        have hk2 : k = normaliseURL a.startURL := (beq_iff_eq.mp hb).symm ▸ rfl
        exact hne t ht (by rw [hcon, hk2, ← hroot])
      omega
    · rw [if_neg hb, Nat.zero_add]
      exact hrest k

lemma processLink_robotsData (a : Audit) (env : Env) (t : Task) (st : CrawlState)
    (l : Str) : (processLink a env t st l).robotsData = st.robotsData := by
  rcases processLink_cases a env t st l with
    heq | ⟨pl, resolved, k, nts, hp, hres, hk, hnts, hsch, hhost, hrob, hvis, heq⟩
  · rw [heq]
  · rw [heq]

lemma processLink_visited_origin (a : Audit) (env : Env) (t : Task) (st : CrawlState)
    (l : Str) (k : Str) (hk : k ∈ (processLink a env t st l).visited) :
    k ∈ st.visited ∨ AcceptedLink a env st.robotsData t l k := by
  rcases processLink_cases a env t st l with
    heq | ⟨pl, resolved, k2, nts, hp, hres, hk2, hnts, hsch, hhost, hrob, hvis, heq⟩
  · rw [heq] at hk
    exact Or.inl hk
  · rw [heq] at hk
    rcases List.mem_append.mp hk with h1 | h2
    · exact Or.inl h1
    · have hkk : k = k2 := by simpa using h2
      refine Or.inr ⟨pl, hp, ?_, ?_⟩
      · rw [← hres]
        exact ⟨hsch, hhost, hrob⟩
      · rw [hkk, hk2, hres]

lemma processLink_edges_origin (a : Audit) (env : Env) (t : Task) (st : CrawlState)
    (l : Str) (e : Str × Str × Nat) (he : e ∈ (processLink a env t st l).graphEdges) :
    e ∈ st.graphEdges ∨
      ∃ k, AcceptedLink a env st.robotsData t l k ∧ e = (normaliseURL t.u, k, 1) := by
  rcases processLink_cases a env t st l with
    heq | ⟨pl, resolved, k2, nts, hp, hres, hk2, hnts, hsch, hhost, hrob, hvis, heq⟩
  · rw [heq] at he
    exact Or.inl he
  · rw [heq] at he
    rcases List.mem_append.mp he with h1 | h2
    · exact Or.inl h1
    · have hee : e = (normaliseURL t.u, k2, 1) := by simpa using h2
      refine Or.inr ⟨k2, ⟨pl, hp, ?_, ?_⟩, hee⟩
      · rw [← hres]
        exact ⟨hsch, hhost, hrob⟩
      · rw [hk2, hres]

lemma processLink_visited_mono (a : Audit) (env : Env) (t : Task) (st : CrawlState)
    (l : Str) (k : Str) (hk : k ∈ st.visited) :
    k ∈ (processLink a env t st l).visited := by
  obtain ⟨ks, es, d, h⟩ := processLink_extends a env t st l
  rw [h]
  exact List.mem_append.mpr (Or.inl hk)

lemma processLink_edges_mono (a : Audit) (env : Env) (t : Task) (st : CrawlState)
    (l : Str) (e : Str × Str × Nat) (he : e ∈ st.graphEdges) :
    e ∈ (processLink a env t st l).graphEdges := by
  obtain ⟨ks, es, d, h⟩ := processLink_extends a env t st l
  rw [h]
  exact List.mem_append.mpr (Or.inl he)

lemma processLinks_visited_origin (a : Audit) (env : Env) (t : Task) (links : List Str) :
    ∀ st : CrawlState, ∀ k, k ∈ (processLinks a env t st links).visited →
      k ∈ st.visited ∨ ∃ l ∈ links, AcceptedLink a env st.robotsData t l k := by
  induction links with
  | nil => exact fun st k hk => Or.inl hk
  | cons l ls ih =>
    intro st k hk
    have hfold : processLinks a env t st (l :: ls) =
        processLinks a env t (processLink a env t st l) ls := by
      rw [processLinks, processLinks, List.foldl_cons]
    rw [hfold] at hk
    rcases ih (processLink a env t st l) k hk with h1 | ⟨l2, hl2, hacc⟩
    · rcases processLink_visited_origin a env t st l k h1 with h2 | h2
      · exact Or.inl h2
      · exact Or.inr ⟨l, by simp, h2⟩
    · rw [processLink_robotsData a env t st l] at hacc
      exact Or.inr ⟨l2, by simp [hl2], hacc⟩

lemma processLinks_edges_origin (a : Audit) (env : Env) (t : Task) (links : List Str) :
    ∀ st : CrawlState, ∀ e, e ∈ (processLinks a env t st links).graphEdges →
      e ∈ st.graphEdges ∨
        ∃ l ∈ links, ∃ k, AcceptedLink a env st.robotsData t l k ∧
          e = (normaliseURL t.u, k, 1) := by
  induction links with
  | nil => exact fun st e he => Or.inl he
  | cons l ls ih =>
    intro st e he
    have hfold : processLinks a env t st (l :: ls) =
        processLinks a env t (processLink a env t st l) ls := by
      rw [processLinks, processLinks, List.foldl_cons]
    rw [hfold] at he
    rcases ih (processLink a env t st l) e he with h1 | ⟨l2, hl2, hacc⟩
    · rcases processLink_edges_origin a env t st l e h1 with h2 | h2
      · exact Or.inl h2
      · exact Or.inr ⟨l, by simp, h2⟩
    · rw [processLink_robotsData a env t st l] at hacc
      exact Or.inr ⟨l2, by simp [hl2], hacc⟩

lemma processLink_scheme_host_filtered (a : Audit) (env : Env) (t : Task)
    (st : CrawlState) (l : Str) (pl : GoURL) (hp : env.parseURL l = some pl)
    (hfil : (env.resolveRef t.u pl).scheme ∉ a.schemes ∨
      normaliseHost t.u.host ≠ normaliseHost (env.resolveRef t.u pl).host) :
    processLink a env t st l = st := by
  unfold processLink
  rw [hp]
  dsimp only
  rcases hfil with h | h
  · rw [if_pos h]
  · by_cases hs : (env.resolveRef t.u pl).scheme ∉ a.schemes
    · rw [if_pos hs]
    · rw [if_neg hs, if_pos h]

lemma processLink_robots_filtered (a : Audit) (env : Env) (t : Task)
    (st : CrawlState) (l : Str) (pl : GoURL) (hp : env.parseURL l = some pl)
    (hrob : robotsDisallows st.robotsData (env.resolveRef t.u pl).path
      a.config.agent = true) :
    processLink a env t st l = st := by
  unfold processLink
  rw [hp]
  dsimp only
  by_cases hs : (env.resolveRef t.u pl).scheme ∉ a.schemes
  · rw [if_pos hs]
  · rw [if_neg hs]
    by_cases hh : normaliseHost t.u.host ≠ normaliseHost (env.resolveRef t.u pl).host
    · rw [if_pos hh]
    · rw [if_neg hh, if_pos hrob]

lemma processLink_accepted_tasks (a : Audit) (env : Env) (t : Task)
    (st : CrawlState) (l : Str) (pl : GoURL) (hp : env.parseURL l = some pl)
    (hsch : (env.resolveRef t.u pl).scheme ∈ a.schemes)
    (hhost : normaliseHost t.u.host = normaliseHost (env.resolveRef t.u pl).host)
    (hrob : robotsDisallows st.robotsData (env.resolveRef t.u pl).path
      a.config.agent = false)
    (hvis : normaliseURL (env.resolveRef t.u pl) ∉ st.visited) :
    (processLink a env t st l).tasks =
      st.tasks ++
        (if t.depth + 1 < a.config.maxDepth
         then [(⟨env.resolveRef t.u pl, t.depth + 1⟩ : Task)] else []) := by
  unfold processLink
  rw [hp]
  dsimp only
  rw [if_neg (not_not_intro hsch), if_neg (not_not_intro hhost), hrob]
  rw [if_neg Bool.false_ne_true, if_neg hvis]

lemma handleTask_robotsData (a : Audit) (env : Env) (st : CrawlState) (t : Task) :
    (handleTask a env st t).robotsData = st.robotsData := by
  obtain ⟨ks, es, d, h⟩ := handleTask_extends a env st t
  rw [h]

lemma runWorker_robotsData (a : Audit) (env : Env) :
    ∀ (fuel : Nat) (st : CrawlState),
      (runWorker a env fuel st).robotsData = st.robotsData := by
  intro fuel
  induction fuel with
  | zero => intro st; rfl
  | succ fuel ih =>
    intro st
    rw [runWorker]
    cases hq : st.tasks with
    | nil => rfl
    | cons t rest =>
      rw [ih, handleTask_robotsData]

lemma runWorkers_robotsData (a : Audit) (env : Env) (fuel : Nat) :
    ∀ (n : Nat) (st : CrawlState),
      (runWorkers a env fuel n st).robotsData = st.robotsData := by
  intro n
  induction n with
  | zero => intro st; rfl
  | succ n ih =>
    intro st
    rw [runWorkers, ih, runWorker_robotsData]

lemma handleTask_visited_mono (a : Audit) (env : Env) (st : CrawlState) (t : Task)
    (k : Str) (hk : k ∈ st.visited) : k ∈ (handleTask a env st t).visited := by
  obtain ⟨ks, es, d, h⟩ := handleTask_extends a env st t
  rw [h]
  exact List.mem_append.mpr (Or.inl hk)

lemma runWorker_visited_mono (a : Audit) (env : Env) :
    ∀ (fuel : Nat) (st : CrawlState) (k : Str),
      k ∈ st.visited → k ∈ (runWorker a env fuel st).visited := by
  intro fuel
  induction fuel with
  | zero => intro st k hk; exact hk
  | succ fuel ih =>
    intro st k hk
    rw [runWorker]
    cases hq : st.tasks with
    | nil => exact hk
    | cons t rest =>
      exact ih _ k (handleTask_visited_mono a env _ t k hk)

lemma runWorkers_visited_mono (a : Audit) (env : Env) (fuel : Nat) :
    ∀ (n : Nat) (st : CrawlState) (k : Str),
      k ∈ st.visited → k ∈ (runWorkers a env fuel n st).visited := by
  intro n
  induction n with
  | zero => intro st k hk; exact hk
  | succ n ih =>
    intro st k hk
    rw [runWorkers]
    exact ih _ k (runWorker_visited_mono a env fuel st k hk)

lemma setAdd_nil (x : Str) : setAdd [] x = [x] := by simp [setAdd]

lemma respectRobots_404 (a : Audit) (env : Env) (r : GoURL) (resp : Response)
    (hparse : env.parseURL (robotsURLString a) = some r)
    (hfetch : env.fetch r = Except.ok resp) (hstatus : resp.status = 404) :
    respectRobots a env initialState =
      ({ initialState with
          fetchHistory := [r],
          visited := [robotsURLString a] }, none) := by
  simp only [respectRobots]
  rw [hparse]
  dsimp only
  rw [hfetch]
  dsimp only
  rw [hstatus]
  simp [initialState, setAdd_nil]

lemma respectRobots_fetch_error (a : Audit) (env : Env) (r : GoURL) (e : Str)
    (hparse : env.parseURL (robotsURLString a) = some r)
    (hfetch : env.fetch r = Except.error e) :
    respectRobots a env initialState =
      ({ initialState with fetchHistory := [r] },
        some (str "error fetching robots.txt: " ++ e)) := by
  simp only [respectRobots]
  rw [hparse]
  dsimp only
  rw [hfetch]
  dsimp only
  simp [initialState]

lemma respectRobots_bad_status (a : Audit) (env : Env) (r : GoURL) (resp : Response)
    (hparse : env.parseURL (robotsURLString a) = some r)
    (hfetch : env.fetch r = Except.ok resp)
    (h404 : resp.status ≠ 404) (h200 : resp.status ≠ 200) :
    respectRobots a env initialState =
      ({ initialState with fetchHistory := [r] },
        some (str "robots.txt not found or returned non 200/404 status")) := by
  simp only [respectRobots]
  rw [hparse]
  dsimp only
  rw [hfetch]
  dsimp only
  rw [if_neg h404, if_pos h200]
  simp [initialState]

lemma respectRobots_parse_failure (a : Audit) (env : Env) (r : GoURL)
    (resp : Response) (e : Str)
    (hparse : env.parseURL (robotsURLString a) = some r)
    (hfetch : env.fetch r = Except.ok resp) (hstatus : resp.status = 200)
    (hrp : env.parseRobots resp.body = Except.error e) :
    respectRobots a env initialState =
      ({ initialState with fetchHistory := [r] },
        some (str "error parsing robots.txt data: " ++ e)) := by
  simp only [respectRobots]
  rw [hparse]
  dsimp only
  rw [hfetch]
  dsimp only
  have h404 : ¬ resp.status = 404 := by omega
  rw [if_neg h404, if_neg (not_not_intro hstatus), hrp]
  simp [initialState]

lemma start_of_preflight_error (a : Audit) (env : Env) (fuel : Nat)
    (hflag : a.config.respectRobots = true) (st1 : CrawlState) (e : Str)
    (hpre : respectRobots a env initialState = (st1, some e)) :
    start a env fuel = (Except.error (str "failed to respect robots: " ++ e), st1) := by
  unfold start
  rw [hflag]
  simp only [if_true]
  rw [hpre]

lemma start_of_preflight_ok (a : Audit) (env : Env) (fuel : Nat)
    (hflag : a.config.respectRobots = true) (st1 : CrawlState)
    (hpre : respectRobots a env initialState = (st1, none)) :
    start a env fuel =
      (Except.ok (), runWorkers a env fuel a.config.maxWorkers.toNat
        (seededState a st1)) := by
  unfold start
  rw [hflag]
  simp only [if_true]
  rw [hpre]
  dsimp only
  rfl

lemma mem_foldl_setAdd (l : List Str) :
    ∀ (s : List Str) (x : Str), x ∈ l.foldl setAdd s ↔ x ∈ s ∨ x ∈ l := by
  induction l with
  | nil => intro s x; simp
  | cons y ys ih =>
    intro s x
    rw [List.foldl_cons, ih]
    have hiff : x ∈ setAdd s y ↔ x ∈ s ∨ x = y := by
      by_cases h : y ∈ s
      · simp only [setAdd, if_pos h]
        constructor
        · exact Or.inl
        · rintro (hy | rfl)
          · exact hy
          · exact h
      · simp [setAdd, h]
    rw [hiff]
    simp [List.mem_cons]
    tauto

/-- C2: depth semantics.  A link accepted by every filter is enqueued
exactly when the source depth plus one is strictly below `MaxDepth`; and on
the 3-page chain seed → /page-a → /page-b with `MaxDepth = 2` the crawl
fetches exactly the seed and /page-a, records exactly the two edges
seed → A and A → B, never enqueues /page-b, and ends with visited count 3
and an empty queue. -/
theorem C2_depth_semantics :
    (∀ (a : Audit) (env : Env) (t : Task) (st : CrawlState) (l : Str) (pl : GoURL),
      env.parseURL l = some pl →
      (env.resolveRef t.u pl).scheme ∈ a.schemes →
      normaliseHost t.u.host = normaliseHost (env.resolveRef t.u pl).host →
      robotsDisallows st.robotsData (env.resolveRef t.u pl).path a.config.agent = false →
      normaliseURL (env.resolveRef t.u pl) ∉ st.visited →
      (processLink a env t st l).tasks =
        st.tasks ++ (if t.depth + 1 < a.config.maxDepth
          then [(⟨env.resolveRef t.u pl, t.depth + 1⟩ : Task)] else [])) ∧
    ((start exAudit envChain 10).1 = Except.ok () ∧
     (start exAudit envChain 10).2.fetchHistory =
       [exSeed, ⟨str "https", str "example.com", str "/page-a", [], []⟩] ∧
     (start exAudit envChain 10).2.graphEdges =
       [(str "https://example.com/", str "https://example.com/page-a", 1),
        (str "https://example.com/page-a", str "https://example.com/page-b", 1)] ∧
     (start exAudit envChain 10).2.enqHistory =
       [⟨exSeed, 0⟩, ⟨⟨str "https", str "example.com", str "/page-a", [], []⟩, 1⟩] ∧
     (start exAudit envChain 10).2.visited =
       [str "https://example.com", str "https://example.com/page-a",
        str "https://example.com/page-b"] ∧
     (start exAudit envChain 10).2.visited.length = 3 ∧
     (start exAudit envChain 10).2.tasks = []) := by
  refine ⟨processLink_accepted_tasks, rfl, rfl, rfl, rfl, rfl, rfl, rfl⟩

/-- C2 witness: the enqueue rule evaluated on the seed task discovering
/page-a at depth 0 with `MaxDepth = 2`. -/
theorem C2_depth_semantics_witness :
    (processLink exAudit envChain ⟨exSeed, 0⟩ (seededState exAudit initialState)
      (str "/page-a")).tasks =
      (seededState exAudit initialState).tasks ++
        [(⟨⟨str "https", str "example.com", str "/page-a", [], []⟩, 1⟩ : Task)] := by
  have h := C2_depth_semantics.1 exAudit envChain ⟨exSeed, 0⟩ (seededState exAudit initialState)
    (str "/page-a") ⟨[], [], str "/page-a", [], []⟩ rfl (by decide) rfl rfl (by decide)
  rw [h]
  rfl

/-- C6 (counterexample): the claim that a non-2xx page status causes the
task to be dropped with no link processing is false for the 3xx range.  The
worker drops a response only when its status is 400 or above (audit.go line
175), so a page answering 301 with a link to `/page-a` is still extracted
and its links processed: the canonical key is visited, the edge is recorded
and a new task is enqueued. -/
theorem C6_per_task_errors_counterexample :
    envRedirect.fetch exSeed = Except.ok ⟨301, []⟩ ∧
    (handleTask exAudit envRedirect
      { seededState exAudit initialState with tasks := [] } ⟨exSeed, 0⟩).visited =
      [str "https://example.com", str "https://example.com/page-a"] ∧
    (handleTask exAudit envRedirect
      { seededState exAudit initialState with tasks := [] } ⟨exSeed, 0⟩).graphEdges =
      [(str "https://example.com/", str "https://example.com/page-a", 1)] ∧
    (handleTask exAudit envRedirect
      { seededState exAudit initialState with tasks := [] } ⟨exSeed, 0⟩).tasks =
      [⟨⟨str "https", str "example.com", str "/page-a", [], []⟩, 1⟩] :=
  ⟨rfl, rfl, rfl, rfl⟩

/-- C6 (amended): per-task errors are recoverable, with the drop condition
being a status of 400 or above rather than any non-2xx status.  A fetch
error, a page status of 400 or above, or an extraction error leaves the
crawl state unchanged apart from the fetch log (the task is dropped, no
link processing happens); statuses in the 300-399 range are still extracted
and processed.  Such errors never propagate: `Start` returns nil whenever
the preflight is disabled, and in the concrete crawl where every fetch
errors the visited set holds only the raw seed string and the queue
drains. -/
theorem C6_per_task_errors_recoverable :
    (∀ (a : Audit) (env : Env) (st : CrawlState) (t : Task) (e : Str),
      env.fetch t.u = Except.error e →
      handleTask a env st t = { st with fetchHistory := st.fetchHistory ++ [t.u] }) ∧
    (∀ (a : Audit) (env : Env) (st : CrawlState) (t : Task) (resp : Response),
      env.fetch t.u = Except.ok resp → 400 ≤ resp.status →
      handleTask a env st t = { st with fetchHistory := st.fetchHistory ++ [t.u] }) ∧
    (∀ (a : Audit) (env : Env) (st : CrawlState) (t : Task) (resp : Response) (e : Str),
      env.fetch t.u = Except.ok resp → ¬ 400 ≤ resp.status →
      env.extract t.u resp.body = Except.error e →
      handleTask a env st t = { st with fetchHistory := st.fetchHistory ++ [t.u] }) ∧
    (∀ (a : Audit) (env : Env) (fuel : Nat), a.config.respectRobots = false →
      (start a env fuel).1 = Except.ok ()) ∧
    ((start exAudit envAllErr 10).1 = Except.ok () ∧
     (start exAudit envAllErr 10).2.visited = [str "https://example.com"] ∧
     (start exAudit envAllErr 10).2.tasks = []) := by
  refine ⟨?_, ?_, ?_, ?_, rfl, rfl, rfl⟩
  · intro a env st t e hf
    unfold handleTask
    rw [hf]
  · intro a env st t resp hf hs
    unfold handleTask
    rw [hf]
    dsimp only
    rw [if_pos hs]
  · intro a env st t resp e hf hs hx
    unfold handleTask
    rw [hf]
    dsimp only
    rw [if_neg hs, hx]
  · intro a env fuel h
    unfold start
    rw [h]
    rfl

/-- C6 witness: the fetch-error case evaluated on the seed task, and the
nil return of `Start` under the always-failing fetcher. -/
theorem C6_per_task_errors_witness :
    handleTask exAudit envAllErr initialState ⟨exSeed, 0⟩ =
      { initialState with fetchHistory := [exSeed] } ∧
    (start exAudit envAllErr 5).1 = Except.ok () :=
  ⟨C6_per_task_errors_recoverable.1 exAudit envAllErr initialState ⟨exSeed, 0⟩ (str "fetch error") rfl,
   C6_per_task_errors_recoverable.2.2.2.1 exAudit envAllErr 5 rfl⟩

/-- C10: a worker count of zero is accepted (only a strictly negative
`MaxWorkers` is rejected with `ErrInvalidMaxWorkers`), and `Start` on such
an orchestrator with robots compliance off launches no worker and returns
nil with the visited set holding exactly the raw seed string, the seed task
still enqueued, an empty graph and no fetches. -/
theorem C10_zero_workers :
    validateConfig exConfigZero (some exSeed) true true = Except.ok exSeed ∧
    (∀ (cfg : Config) (u : GoURL), cfg.startURL ≠ [] → u.scheme ≠ [] →
      cfg.maxWorkers < 0 →
      validateConfig cfg (some u) true true = Except.error NewError.invalidMaxWorkers) ∧
    (∀ (env : Env) (fuel : Nat),
      start exAuditZero env fuel =
        (Except.ok (), ⟨[⟨exSeed, 0⟩], [str "https://example.com"], [], none,
          [⟨exSeed, 0⟩], []⟩)) := by
  refine ⟨rfl, ?_, fun env fuel => rfl⟩
  intro cfg u h1 h2 h3
  simp [validateConfig, h1, h2, h3]

/-- C10 witness: the negative-worker rejection evaluated at -1 and the
zero-worker start evaluated under the always-failing fetcher. -/
theorem C10_zero_workers_witness :
    validateConfig ⟨str "info", str "https://example.com", str "agent", [], false, -1, 2⟩
      (some exSeed) true true = Except.error NewError.invalidMaxWorkers ∧
    start exAuditZero envAllErr 3 =
      (Except.ok (), ⟨[⟨exSeed, 0⟩], [str "https://example.com"], [], none,
        [⟨exSeed, 0⟩], []⟩) :=
  ⟨C10_zero_workers.2.1 ⟨str "info", str "https://example.com", str "agent", [], false, -1, 2⟩
      exSeed (by decide) (by decide) (by decide),
   C10_zero_workers.2.2 envAllErr 3⟩

/-- C3 (counterexample): the claim that a supplied `ValidSchemes` overrides
the default so the allow-list equals exactly the supplied entries is false:
with `ValidSchemes = "http"` the allow-list still contains `https`, which is
not among the supplied entries, because `New` adds the entries to the
default set instead of replacing it.  The entries are also kept verbatim,
not lowercased: `ValidSchemes = "HTTP"` yields an entry `HTTP`. -/
theorem C3_scheme_allowlist_counterexample :
    (str "https") ∈ buildSchemes (str "http") ∧
    splitOnChar ',' (str "http") = [str "http"] ∧
    (str "https") ∉ [str "http"] ∧
    (str "HTTP") ∈ buildSchemes (str "HTTP") := by
  decide

/-- C3 (amended): the allow-list defaults to exactly the singleton `https`
when `ValidSchemes` is empty; when `ValidSchemes` is non-empty the allow-list
is the union of the default `https` and the comma-separated entries taken
verbatim. -/
theorem C3_scheme_allowlist_amended :
    buildSchemes [] = [str "https"] ∧
    (∀ vs : Str, vs ≠ [] → ∀ x : Str,
      x ∈ buildSchemes vs ↔ x = str "https" ∨ x ∈ splitOnChar ',' vs) := by
  refine ⟨rfl, ?_⟩
  intro vs hvs x
  unfold buildSchemes
  rw [if_neg hvs, mem_foldl_setAdd]
  simp

/-- C3 witness: the membership characterisation evaluated at
`ValidSchemes = "http"`. -/
theorem C3_scheme_allowlist_witness :
    (str "http") ∈ buildSchemes (str "http") ↔
      (str "http") = str "https" ∨ (str "http") ∈ splitOnChar ',' (str "http") :=
  C3_scheme_allowlist_amended.2 (str "http") (by decide) (str "http")

/-- C9: the claim that a response body is released before the worker
dequeues and fetches the next task is violated by the code: the deferred
close inside the worker loop runs only at function exit, so in the two-page
crawl the trace is fetch 0, fetch 1, close 1, close 0 and the second fetch
happens while body 0 is still open. -/
theorem C9_body_release_deferred :
    (runWorkerBodies exAudit envChain 10 ⟨seededState exAudit initialState, 0, [], []⟩).trace =
      [BodyEv.fetched exSeed 0,
       BodyEv.fetched ⟨str "https", str "example.com", str "/page-a", [], []⟩ 1,
       BodyEv.closed 1, BodyEv.closed 0] ∧
    ¬ bodiesClosedBeforeNextFetch
      (runWorkerBodies exAudit envChain 10 ⟨seededState exAudit initialState, 0, [], []⟩).trace := by
  refine ⟨rfl, ?_⟩
  intro h
  obtain ⟨m, h1, h2, h3⟩ := h 0 1 exSeed 0
    ⟨str "https", str "example.com", str "/page-a", [], []⟩ 1 (by omega) rfl rfl
  omega

/-- C7 (counterexample): canonicalisation is not idempotent as claimed.
For the URL `https://example.com/a//`, canonicalising its canonical form
drops a second slash and yields a different key; the same pair shows two
URLs differing only by a single trailing slash on a non-root path that
canonicalise to different keys. -/
theorem C7_canonicalisation_counterexample :
    normaliseURL (canonicalForm ⟨str "https", str "example.com", str "/a//", [], []⟩) ≠
      normaliseURL ⟨str "https", str "example.com", str "/a//", [], []⟩ ∧
    normaliseURL ⟨str "https", str "example.com", str "/a/", [], []⟩ ≠
      normaliseURL ⟨str "https", str "example.com", str "/a//", [], []⟩ := by
  decide

/-- C7 (amended): canonicalising the canonical form yields the same string
for every URL whose path does not end in a double slash; query and fragment
never affect the key; and appending a single trailing slash leaves the key
unchanged provided the path does not already end in a slash (or is the
root). -/
theorem C7_canonicalisation_amended :
    (∀ u : GoURL, strEndsWith u.path (str "//") = false →
      normaliseURL (canonicalForm u) = normaliseURL u) ∧
    (∀ (sc h p q1 f1 q2 f2 : Str),
      normaliseURL ⟨sc, h, p, q1, f1⟩ = normaliseURL ⟨sc, h, p, q2, f2⟩) ∧
    (∀ u : GoURL, strEndsWith u.path (str "/") = false ∨ u.path = str "/" →
      normaliseURL ⟨u.scheme, u.host, u.path ++ str "/", u.query, u.fragment⟩ =
        normaliseURL u) := by
  refine ⟨?_, ?_, ?_⟩
  · intro u h
    simp only [normaliseURL, canonicalForm]
    rw [normalisePath_idem u.path h]
  · intro sc h p q1 f1 q2 f2
    rfl
  · intro u h
    simp only [normaliseURL]
    rw [normalisePath_append_slash u.path h]

/-- C7 witness: idempotence and trailing-slash invariance evaluated at the
path `/a`. -/
theorem C7_canonicalisation_witness :
    normaliseURL (canonicalForm ⟨str "https", str "example.com", str "/a", [], []⟩) =
      normaliseURL ⟨str "https", str "example.com", str "/a", [], []⟩ ∧
    normaliseURL ⟨str "https", str "example.com", str "/a" ++ str "/", [], []⟩ =
      normaliseURL ⟨str "https", str "example.com", str "/a", [], []⟩ :=
  ⟨C7_canonicalisation_amended.1 ⟨str "https", str "example.com", str "/a", [], []⟩ (by decide),
   C7_canonicalisation_amended.2.2 ⟨str "https", str "example.com", str "/a", [], []⟩
     (Or.inl (by decide))⟩

/-- C1 (counterexample): the claim that no canonical key is ever enqueued
twice fails precisely on the seed clause it singles out.  With seed
`https://example.com` (raw string without trailing slash) and a page linking
back to `/`, the crawl enqueues two tasks whose canonical key is
`https://example.com/`, the canonical key of the seed itself, because
`Start` records the raw seed string, not its canonical key, in the visited
set. -/
theorem C1_enqueue_once_counterexample :
    (start exAudit envRootLink 10).2.enqHistory =
      [⟨exSeed, 0⟩, ⟨⟨str "https", str "example.com", str "/", [], []⟩, 1⟩] ∧
    countTasksWithKey (start exAudit envRootLink 10).2.enqHistory
      (str "https://example.com/") = 2 ∧
    normaliseURL exSeed = str "https://example.com/" ∧
    (start exAudit envRootLink 10).2.tasks = [] :=
  ⟨rfl, rfl, rfl, rfl⟩

/-- C1 witness: the amended bound evaluated on the freshly seeded
single-worker system. -/
theorem C1_enqueue_once_witness :
    countTasksWithKey (initSys exAudit initialState 1).st.enqHistory
      (str "https://example.com/x") ≤ 1 ∧
    countTasksWithKey (initSys exAudit initialState 1).st.enqHistory
      (str "https://example.com/") ≤ 2 :=
  ⟨(C1_enqueue_once_amended exAudit envAllErr initialState 1 rfl _
      Relation.ReflTransGen.refl).1 (str "https://example.com/x") (by decide),
   (C1_enqueue_once_amended exAudit envAllErr initialState 1 rfl _
      Relation.ReflTransGen.refl).2.1 (str "https://example.com/")⟩

lemma c8_reach : Reachable exAudit envAllErr (initSys exAudit initialState 1) c8FinalSys := by
  refine Relation.ReflTransGen.head
    (Step.dequeue (initSys exAudit initialState 1) 0 ⟨exSeed, 0⟩ [] rfl rfl) ?_
  refine Relation.ReflTransGen.head (Step.finish _ 0 ⟨exSeed, 0⟩ rfl) ?_
  refine Relation.ReflTransGen.head (Step.exitWorker _ 0 rfl rfl) ?_
  exact Relation.ReflTransGen.refl

lemma c8_term : allExited c8FinalSys := by
  intro w hw
  simpa [c8FinalSys] using hw

/-- C8 witness: the terminal state of the one-worker crawl whose only fetch
fails. -/
theorem C8_no_task_lost_witness :
    c8FinalSys.st.tasks = [] ∧ c8FinalSys.st.enqHistory = c8FinalSys.deqHistory ∧
    c8FinalSys.deqHistory.Perm c8FinalSys.procHistory :=
  C8_no_task_lost exAudit envAllErr initialState 1 (by omega) rfl rfl c8FinalSys c8_reach c8_term

/-- C4: filtered links leave no trace.  A processed link whose resolved
scheme is outside the allow-list or whose resolved www-stripped host differs
from the www-stripped host of the source page leaves the crawl state
entirely unchanged, so its canonical key is never added to the visited set
and never appears in the graph; likewise a link whose resolved path an
active robots policy disallows enqueues no task and adds no edge.  Moreover
every visited entry and every edge a `processLinks` pass adds originates
from a link that passed all three filters. -/
theorem C4_filtered_links_no_trace :
    (∀ (a : Audit) (env : Env) (t : Task) (st : CrawlState) (l : Str) (pl : GoURL),
      env.parseURL l = some pl →
      ((env.resolveRef t.u pl).scheme ∉ a.schemes ∨
        normaliseHost t.u.host ≠ normaliseHost (env.resolveRef t.u pl).host) →
      processLink a env t st l = st) ∧
    (∀ (a : Audit) (env : Env) (t : Task) (st : CrawlState) (l : Str) (pl : GoURL),
      env.parseURL l = some pl →
      robotsDisallows st.robotsData (env.resolveRef t.u pl).path a.config.agent = true →
      processLink a env t st l = st) ∧
    (∀ (a : Audit) (env : Env) (t : Task) (links : List Str) (st : CrawlState) (k : Str),
      k ∈ (processLinks a env t st links).visited →
      k ∈ st.visited ∨ ∃ l ∈ links, AcceptedLink a env st.robotsData t l k) ∧
    (∀ (a : Audit) (env : Env) (t : Task) (links : List Str) (st : CrawlState)
        (e : Str × Str × Nat),
      e ∈ (processLinks a env t st links).graphEdges →
      e ∈ st.graphEdges ∨ ∃ l ∈ links, ∃ k, AcceptedLink a env st.robotsData t l k ∧
        e = (normaliseURL t.u, k, 1)) :=
  ⟨processLink_scheme_host_filtered, processLink_robots_filtered,
   fun a env t links st k => processLinks_visited_origin a env t links st k,
   fun a env t links st e => processLinks_edges_origin a env t links st e⟩

/-- C4 witness: an external-host link and a robots-disallowed link, each
leaving the state unchanged. -/
theorem C4_filtered_links_witness :
    processLink exAudit envExternal ⟨exSeed, 0⟩ initialState (str "/x") = initialState ∧
    processLink exAudit envChain ⟨exSeed, 0⟩ stRobotsAll (str "/forbidden") = stRobotsAll := by
  constructor
  · exact C4_filtered_links_no_trace.1 exAudit envExternal ⟨exSeed, 0⟩ initialState (str "/x")
      ⟨str "http", str "other.com", str "/x", [], []⟩ rfl (Or.inl (by decide))
  · exact C4_filtered_links_no_trace.2.1 exAudit envChain ⟨exSeed, 0⟩ stRobotsAll (str "/forbidden")
      ⟨[], [], str "/forbidden", [], []⟩ rfl rfl

/-- C5: robots preflight contract.  With `RespectRobots` enabled: a 404 for
robots.txt yields a nil robots policy, records the robots URL as visited,
and `Start` returns nil; a fetch-layer error, any other non-200 status, or a
robots parse failure makes `Start` return an error whose message begins with
"failed to respect robots", with nothing enqueued and no page fetched. -/
theorem C5_robots_preflight :
    (∀ (a : Audit) (env : Env) (fuel : Nat) (r : GoURL) (resp : Response),
      a.config.respectRobots = true →
      env.parseURL (robotsURLString a) = some r →
      env.fetch r = Except.ok resp → resp.status = 404 →
      (start a env fuel).1 = Except.ok () ∧
      (start a env fuel).2.robotsData = none ∧
      robotsURLString a ∈ (start a env fuel).2.visited) ∧
    (∀ (a : Audit) (env : Env) (fuel : Nat) (r : GoURL) (e : Str),
      a.config.respectRobots = true →
      env.parseURL (robotsURLString a) = some r →
      env.fetch r = Except.error e →
      ∃ m, start a env fuel = (Except.error m, { initialState with fetchHistory := [r] }) ∧
        (str "failed to respect robots") <+: m) ∧
    (∀ (a : Audit) (env : Env) (fuel : Nat) (r : GoURL) (resp : Response),
      a.config.respectRobots = true →
      env.parseURL (robotsURLString a) = some r →
      env.fetch r = Except.ok resp → resp.status ≠ 404 → resp.status ≠ 200 →
      ∃ m, start a env fuel = (Except.error m, { initialState with fetchHistory := [r] }) ∧
        (str "failed to respect robots") <+: m) ∧
    (∀ (a : Audit) (env : Env) (fuel : Nat) (r : GoURL) (resp : Response) (e : Str),
      a.config.respectRobots = true →
      env.parseURL (robotsURLString a) = some r →
      env.fetch r = Except.ok resp → resp.status = 200 →
      env.parseRobots resp.body = Except.error e →
      ∃ m, start a env fuel = (Except.error m, { initialState with fetchHistory := [r] }) ∧
        (str "failed to respect robots") <+: m) := by
  refine ⟨?_, ?_, ?_, ?_⟩
  · intro a env fuel r resp hflag hp hf hs
    have hpre := respectRobots_404 a env r resp hp hf hs
    have hstart := start_of_preflight_ok a env fuel hflag _ hpre
    rw [hstart]
    refine ⟨rfl, ?_, ?_⟩
    · rw [runWorkers_robotsData]
      rfl
    · apply runWorkers_visited_mono
      apply mem_setAdd_of_mem
      simp [seededState]
  · intro a env fuel r e hflag hp hf
    have hpre := respectRobots_fetch_error a env r e hp hf
    exact ⟨_, start_of_preflight_error a env fuel hflag _ _ hpre, _, rfl⟩
  · intro a env fuel r resp hflag hp hf h404 h200
    have hpre := respectRobots_bad_status a env r resp hp hf h404 h200
    exact ⟨_, start_of_preflight_error a env fuel hflag _ _ hpre, _, rfl⟩
  · intro a env fuel r resp e hflag hp hf hs hrp
    have hpre := respectRobots_parse_failure a env r resp e hp hf hs hrp
    exact ⟨_, start_of_preflight_error a env fuel hflag _ _ hpre, _, rfl⟩

/-- C5 witness: the four preflight outcomes evaluated on concrete
environments returning 404, 403, a fetch error, and an unparsable body. -/
theorem C5_robots_preflight_witness :
    ((start exAuditRobots envRobots404 5).1 = Except.ok () ∧
     (start exAuditRobots envRobots404 5).2.robotsData = none ∧
     robotsURLString exAuditRobots ∈ (start exAuditRobots envRobots404 5).2.visited) ∧
    (∃ m, start exAuditRobots envRobots403 5 =
        (Except.error m, { initialState with fetchHistory := [robotsParsedURL] }) ∧
      (str "failed to respect robots") <+: m) ∧
    (∃ m, start exAuditRobots envRobotsErr 5 =
        (Except.error m, { initialState with fetchHistory := [robotsParsedURL] }) ∧
      (str "failed to respect robots") <+: m) ∧
    (∃ m, start exAuditRobots envRobotsBadParse 5 =
        (Except.error m, { initialState with fetchHistory := [robotsParsedURL] }) ∧
      (str "failed to respect robots") <+: m) :=
  ⟨C5_robots_preflight.1 exAuditRobots envRobots404 5 robotsParsedURL ⟨404, []⟩ rfl rfl rfl rfl,
   C5_robots_preflight.2.2.1 exAuditRobots envRobots403 5 robotsParsedURL ⟨403, str "FORBIDDEN"⟩
     rfl rfl rfl (by decide) (by decide),
   C5_robots_preflight.2.1 exAuditRobots envRobotsErr 5 robotsParsedURL (str "network failure")
     rfl rfl rfl,
   C5_robots_preflight.2.2.2 exAuditRobots envRobotsBadParse 5 robotsParsedURL
     ⟨200, str "garbage"⟩ (str "parse failure") rfl rfl rfl rfl rfl⟩

end SiteAudit
